import Mathlib

/-!
Shallow embedding of the `amazon-product-sandbox` pipeline.

Python strings are modelled as lists of characters (`PyStr`), JSON numbers as
rationals, fallible Python code as `Except PyErr`.  Python's stable `sorted`
is modelled by `List.insertionSort` (any stable sort agrees with it
extensionally, and `insertionSort` is structurally recursive, hence
kernel-computable).
-/

/-- Python strings, modelled as lists of characters. -/
abbrev PyStr := List Char

/-- Exception kinds raised by the embedded code. -/
inductive PyErr where
  | valueError
  | typeError
  | keyError
  deriving DecidableEq, Repr

/-- Characters removed by Python's `str.strip()` (no-argument form). -/
def pyIsSpace (c : Char) : Bool :=
  c == ' ' || c == '\t' || c == '\n' || c == '\r' ||
    c == Char.ofNat 11 || c == Char.ofNat 12

/-- Python `s.strip()`: remove leading and trailing whitespace. -/
def pyStrip (s : PyStr) : PyStr :=
  ((s.dropWhile pyIsSpace).reverse.dropWhile pyIsSpace).reverse

/-- Python `s.lstrip(chars)`: remove leading characters drawn from `chars`. -/
def pyLstrip (chars : List Char) (s : PyStr) : PyStr :=
  s.dropWhile (fun c => chars.contains c)

/-- Worker for Python `s.split(sep)` (nonempty `sep`): `acc` holds the
current piece reversed. -/
def splitAux (sep : PyStr) : PyStr → PyStr → List PyStr
  | [], acc => [acc.reverse]
  | c :: rest, acc =>
    if sep.isPrefixOf (c :: rest) then
      acc.reverse :: splitAux sep (List.drop (sep.length - 1) rest) []
    else
      splitAux sep rest (c :: acc)
termination_by l _ => l.length
decreasing_by
  · simp only [List.length_cons, List.length_drop]
    omega
  · simp only [List.length_cons]
    omega

/-- Python `s.split(sep)` for a nonempty separator. -/
def pySplit (s sep : PyStr) : List PyStr :=
  splitAux sep s []

/-- Python `s.replace(old, new)` for a nonempty `old`. -/
def replaceAux (sep repl : PyStr) : PyStr → PyStr
  | [] => []
  | c :: rest =>
    if sep.isPrefixOf (c :: rest) then
      repl ++ replaceAux sep repl (List.drop (sep.length - 1) rest)
    else
      c :: replaceAux sep repl rest
termination_by l => l.length
decreasing_by
  · simp only [List.length_cons, List.length_drop]
    omega
  · simp only [List.length_cons]
    omega

/-- `"\n".join(lines)`. -/
def joinLines : List PyStr → PyStr
  | [] => []
  | [l] => l
  | l :: ls => l ++ '\n' :: joinLines ls

/-- Value of a decimal digit string (most significant first). -/
def digitsToNat (s : PyStr) : ℕ :=
  s.foldl (fun n c => 10 * n + (c.toNat - 48)) 0

/-- Python `float(s)` restricted to strings of digits and dots (the only
inputs the pipeline feeds it): it succeeds iff there is at most one dot and
at least one digit, else raises `ValueError`.  The value is modelled exactly
as a rational. -/
def pyFloat (s : PyStr) : Except PyErr ℚ :=
  if s.count '.' ≤ 1 ∧ s.any Char.isDigit then
    let ipart := s.takeWhile (fun c => c ≠ '.')
    let fpart := (s.dropWhile (fun c => c ≠ '.')).drop 1
    .ok ((digitsToNat ipart : ℚ) + (digitsToNat fpart : ℚ) / (10 : ℚ) ^ fpart.length)
  else
    .error .valueError

/-! ## Candidate records (`pipeline.py`)

A product dictionary as consumed by the filter loop and
`select_top_products`.  `Option` is used for fields only ever read through
`dict.get`, merging an absent key with a JSON `null` (both give `None`).
The `title` field keeps two levels because `select_top_products` indexes
`product['title']` directly (absent key and `None` value raise differently),
and `price` keeps four cases because `p.get('price', 0)` distinguishes an
absent key (default `0`) from a `None` value. -/

/-- The `"price"` entry of a candidate record. -/
inductive PriceV where
  | absent
  | null
  | str (s : PyStr)
  | num (q : ℚ)
  deriving DecidableEq, Repr

structure Product where
  asin : Option PyStr
  title : Option (Option PyStr)
  link : Option PyStr
  link_clean : Option PyStr
  thumbnail : Option PyStr
  rating : Option ℚ
  reviews : Option ℤ
  price : PriceV
  deriving DecidableEq, Repr

/-- The price component of `sort_key`: a string price is stripped to digits
and dots then parsed (empty → 999999), a `None` price → 999999, an absent
price key → the default `0`, a number is used as is. -/
def priceKey : PriceV → Except PyErr ℚ
  | .str s =>
    let price_clean := s.filter (fun c => c.isDigit || c == '.')
    if price_clean.isEmpty then .ok 999999 else pyFloat price_clean
  | .null => .ok 999999
  | .absent => .ok 0
  | .num q => .ok q

/-- `sort_key` from `ProductAnalysisPipeline.select_top_products`:
`(-rating, -reviews, price)` with `rating`/`reviews` defaulting to 0. -/
def sortKey (p : Product) : Except PyErr (ℚ × ℤ × ℚ) :=
  match priceKey p.price with
  | .error e => .error e
  | .ok price => .ok (-(p.rating.getD 0), -(p.reviews.getD 0), price)

/-- Lexicographic `≤` on sort-key triples (Python tuple comparison). -/
def tupLe (a b : ℚ × ℤ × ℚ) : Prop :=
  a.1 < b.1 ∨ (a.1 = b.1 ∧ (a.2.1 < b.2.1 ∨ (a.2.1 = b.2.1 ∧ a.2.2 ≤ b.2.2)))

instance : DecidableRel tupLe := fun a b => by
  unfold tupLe; infer_instance

theorem tupLe_total (a b : ℚ × ℤ × ℚ) : tupLe a b ∨ tupLe b a := by
  unfold tupLe
  rcases lt_trichotomy a.1 b.1 with h | h | h
  · exact Or.inl (Or.inl h)
  · rcases lt_trichotomy a.2.1 b.2.1 with h2 | h2 | h2
    · exact Or.inl (Or.inr ⟨h, Or.inl h2⟩)
    · rcases le_total a.2.2 b.2.2 with h3 | h3
      · exact Or.inl (Or.inr ⟨h, Or.inr ⟨h2, h3⟩⟩)
      · exact Or.inr (Or.inr ⟨h.symm, Or.inr ⟨h2.symm, h3⟩⟩)
    · exact Or.inr (Or.inr ⟨h.symm, Or.inl h2⟩)
  · exact Or.inr (Or.inl h)

theorem tupLe_trans {a b c : ℚ × ℤ × ℚ} (h1 : tupLe a b) (h2 : tupLe b c) :
    tupLe a c := by
  unfold tupLe at h1 h2 ⊢
  rcases h1 with h1 | ⟨e1, h1⟩ <;> rcases h2 with h2 | ⟨e2, h2⟩
  · exact Or.inl (h1.trans h2)
  · exact Or.inl (e2 ▸ h1)
  · exact Or.inl (e1 ▸ h2)
  · refine Or.inr ⟨e1.trans e2, ?_⟩
    rcases h1 with h1 | ⟨f1, h1⟩ <;> rcases h2 with h2 | ⟨f2, h2⟩
    · exact Or.inl (h1.trans h2)
    · exact Or.inl (f2 ▸ h1)
    · exact Or.inl (f1 ▸ h2)
    · exact Or.inr ⟨f1.trans f2, h1.trans h2⟩

/-- Comparison used on key-decorated products (CPython computes the key once
per element and compares keys). -/
def keyedLe (x y : (ℚ × ℤ × ℚ) × Product) : Prop := tupLe x.1 y.1

instance : DecidableRel keyedLe := fun x y => by
  unfold keyedLe; infer_instance

instance : IsTotal ((ℚ × ℤ × ℚ) × Product) keyedLe :=
  ⟨fun a b => tupLe_total a.1 b.1⟩

instance : IsTrans ((ℚ × ℤ × ℚ) × Product) keyedLe :=
  ⟨fun _ _ _ h1 h2 => tupLe_trans h1 h2⟩

/-- The logging loop of `select_top_products` indexes `product['title']` and
slices it: a missing key raises `KeyError`, a `None` value raises
`TypeError`. -/
def logSelected (p : Product) : Except PyErr Unit :=
  match p.title with
  | some (some _) => .ok ()
  | some none => .error .typeError
  | none => .error .keyError

/-- Apply a fallible operation to each list element in order, propagating
the first raised exception (Python's evaluation order). -/
def mapExcept {α β E : Type} (f : α → Except E β) : List α → Except E (List β)
  | [] => .ok []
  | a :: rest =>
    match f a with
    | .error e => .error e
    | .ok b =>
      match mapExcept f rest with
      | .error e => .error e
      | .ok bs => .ok (b :: bs)

/-- `ProductAnalysisPipeline.select_top_products`: compute all sort keys
(first-error wins, as CPython evaluates keys in input order), sort stably
ascending by key, truncate to `limit`, then log each selected product. -/
def select_top_products (products : List Product) (limit : ℕ) :
    Except PyErr (List Product) :=
  match mapExcept (fun p => (sortKey p).map (fun k => (k, p))) products with
  | .error e => .error e
  | .ok keyed =>
    let sorted_products := (List.insertionSort keyedLe keyed).map (fun x => x.2)
    let top_products := sorted_products.take limit
    match mapExcept logSelected top_products with
    | .error e => .error e
    | .ok _ => .ok top_products

/-! ## Client-side filter loop (`ProductAnalysisPipeline.run`, step 3) -/

/-- `min_rating is None or (rating and rating >= min_rating)`: a missing or
zero rating is falsy and fails whenever the threshold is set. -/
def passes_rating (min_rating : Option ℚ) (p : Product) : Bool :=
  match min_rating with
  | none => true
  | some m =>
    match p.rating with
    | none => false
    | some r => decide (r ≠ 0) && decide (m ≤ r)

/-- `min_reviews is None or (reviews and reviews >= min_reviews)`: the
`.get("reviews", 0)` default and a `None` value are both falsy, like an
explicit 0. -/
def passes_reviews (min_reviews : Option ℤ) (p : Product) : Bool :=
  match min_reviews with
  | none => true
  | some m =>
    match p.reviews with
    | none => false
    | some k => decide (k ≠ 0) && decide (m ≤ k)

def passesFilters (min_rating : Option ℚ) (min_reviews : Option ℤ)
    (p : Product) : Bool :=
  passes_rating min_rating p && passes_reviews min_reviews p

/-- The `filtered_product` projection built for survivors: every projected
key is present (so `title` becomes a present key whose value is the `.get`
result, and an absent price key becomes the `None` that `.get("price")`
returns). -/
def projectEntry (p : Product) : Product :=
  { asin := p.asin
    title := some (p.title.bind id)
    link := p.link
    link_clean := p.link_clean
    thumbnail := p.thumbnail
    rating := p.rating
    reviews := p.reviews
    price := match p.price with | .absent => .null | v => v }

/-- The filter loop over `raw_results`: skip an already-seen asin, keep a
survivor and only then record its asin in `seen_asins`. -/
def filterProducts (min_rating : Option ℚ) (min_reviews : Option ℤ) :
    List Product → List (Option PyStr) → List Product
  | [], _ => []
  | p :: rest, seen =>
    if p.asin ∈ seen then filterProducts min_rating min_reviews rest seen
    else if passesFilters min_rating min_reviews p then
      projectEntry p :: filterProducts min_rating min_reviews rest (p.asin :: seen)
    else filterProducts min_rating min_reviews rest seen

/-- Keep the first occurrence of each asin (reference function used to state
in which order deduplication and filtering compose). -/
def dedupFirst : List Product → List (Option PyStr) → List Product
  | [], _ => []
  | p :: rest, seen =>
    if p.asin ∈ seen then dedupFirst rest seen
    else p :: dedupFirst rest (p.asin :: seen)

/-- The Filter/Rank Engine of the spec: the filter loop followed by
`select_top_products`. -/
def filterRankEngine (min_rating : Option ℚ) (min_reviews : Option ℤ)
    (limit : ℕ) (raw : List Product) : Except PyErr (List Product) :=
  select_top_products (filterProducts min_rating min_reviews raw []) limit

/-! ## External collaborators and the stage orchestrator

Each provider call is modelled as a total function of the network outcome it
observes; the handlers in `src/` catch every exception and return an empty
result, so the wrapped tasks never raise. -/

/-- Outcome of one HTTP request, with the decoded body on success. -/
inductive HttpOutcome (α : Type) where
  | success (status : ℕ) (body : α)
  | transportError
  deriving DecidableEq

/-- The `"feature_bullets"` value of a Rainforest product payload (JSON
list, string or null). -/
inductive FBVal where
  | null
  | str (s : PyStr)
  | list (bs : List PyStr)
  deriving DecidableEq

structure RFProduct where
  title : Option (Option PyStr)
  feature_bullets : Option FBVal
  deriving DecidableEq

/-- A Rainforest API response body; only the `product` entry is consumed. -/
structure RFData where
  product : Option RFProduct
  deriving DecidableEq

def emptyRFData : RFData := { product := none }

def emptyRFProduct : RFProduct := { title := none, feature_bullets := none }

/-- `RainforestHandler.get_product_data`: a non-200 status, a transport
error, or any other exception is caught and an empty dict is returned. -/
def get_product_data (resp : HttpOutcome RFData) : RFData :=
  match resp with
  | .success status body => if status = 200 then body else emptyRFData
  | .transportError => emptyRFData

/-- `asyncio.gather(..., return_exceptions=True)` followed by the loop that
re-raises the first collected exception. -/
def gatherCheck {E A : Type} (rs : List (Except E A)) : Except E (List A) :=
  mapExcept id rs

/-- The detail stage of `collect_product_data`: one Rainforest fetch per
shortlist entry, gathered in input order; a task only fails if
`get_product_data` raises, which it never does. -/
def detailStage (responses : List (HttpOutcome RFData)) :
    Except PyErr (List RFData) :=
  gatherCheck (responses.map
    (fun r => (Except.ok (get_product_data r) : Except PyErr RFData)))

/-- A raw review record.  `asin` and `product_title` model dictionary keys
that may be absent (outer `Option`) or hold `None` (inner `Option`). -/
structure Review where
  rating : Option ℚ
  body : PyStr
  asin : Option (Option PyStr)
  product_title : Option (Option PyStr)
  deriving DecidableEq

/-- What `ApifyHandler.get_product_reviews` observes: each early-exit branch
returns `[]`. -/
inductive ApifyOutcome where
  | noRunId
  | runFailed
  | noDatasetId
  | items (reviews : List Review)
  deriving DecidableEq

def apify_get_product_reviews (o : ApifyOutcome) : List Review :=
  match o with
  | .items rs => rs
  | _ => []

/-- The review stage of `collect_product_data`: a strictly sequential loop,
re-raising on a task exception (which `get_product_reviews` never throws). -/
def reviewStage (outcomes : List ApifyOutcome) :
    Except PyErr (List (List Review)) :=
  gatherCheck (outcomes.map
    (fun o => (Except.ok (apify_get_product_reviews o) : Except PyErr (List Review))))

/-! ## Analysis stage (`analyze_all_products` and `GeminiHandler`) -/

structure AnalysisRequest where
  title : Option PyStr
  description : PyStr
  reviews : List Review
  deriving DecidableEq

/-- Request construction for one shortlist entry (`analyze_all_products`,
loop body): Rainforest title if the key is present (even when `None`),
falling back to the entry's title, then `'Unknown Product'`; a list of
feature bullets (the default for an absent key is `[]`) is joined with one
`- ` marker per line, a truthy non-list is stringified, and only a falsy
non-list yields the placeholder. -/
def buildRequest (product : Product) (pdata : RFData) (reviews : List Review) :
    AnalysisRequest :=
  let rf_product := pdata.product.getD emptyRFProduct
  let entry_title : Option PyStr :=
    match product.title with
    | some v => v
    | none => some "Unknown Product".toList
  let title : Option PyStr :=
    match rf_product.title with
    | some v => v
    | none => entry_title
  let feature_bullets := rf_product.feature_bullets.getD (.list [])
  let description : PyStr :=
    match feature_bullets with
    | .list bs => joinLines (bs.map (fun b => '-' :: ' ' :: b))
    | .str s => if s.isEmpty then "No description available".toList else s
    | .null => "No description available".toList
  { title := title, description := description, reviews := reviews }

/-- The request-construction loop, which indexes `product_data_list[i]` and
`reviews_list[i]`; the pipeline always calls it with aligned lists, so it is
modelled on the zipped triples. -/
def buildRequests (products : List Product) (pdata : List RFData)
    (reviews : List (List Review)) : List AnalysisRequest :=
  (products.zip (pdata.zip reviews)).map (fun x => buildRequest x.1 x.2.1 x.2.2)

/-- What one Gemini call observes. -/
inductive GeminiOutcome where
  | httpError (status : ℕ)
  | transportError
  | noCandidates
  | noParts
  | text (s : PyStr)
  deriving DecidableEq

structure GeminiResult where
  analysis : PyStr
  raw_text : PyStr
  deriving DecidableEq

/-- `GeminiHandler.analyze_reviews`: every failure path (including the
`TypeError` from slicing a `None` title, raised and caught inside the same
`try`) returns `None`; empty generated text also returns `None`. -/
def analyze_reviews (req : AnalysisRequest) (o : GeminiOutcome) :
    Option GeminiResult :=
  if req.title.isNone then none
  else
    match o with
    | .text s => if s.isEmpty then none else some { analysis := s, raw_text := s }
    | _ => none

/-- `analyze_all_products`: all Gemini requests gathered in input order with
the same dead exception check as the detail stage. -/
def analysisStage (reqs : List (AnalysisRequest × GeminiOutcome)) :
    Except PyErr (List (Option GeminiResult)) :=
  gatherCheck (reqs.map
    (fun x => (Except.ok (analyze_reviews x.1 x.2) : Except PyErr (Option GeminiResult))))

deriving instance DecidableEq for Except

/-! ## Review tagging and the tail of `run` (steps 4-7) -/

/-- The review-saving loop of `run`: each review dict of entry `i` gets
`review['asin'] = top_products[i]['asin']` and
`review['product_title'] = top_products[i]['title']` written into it (the
shortlist projections always carry both keys). -/
def tagReviews (top : List Product) (reviews : List (List Review)) :
    List (List Review) :=
  (top.zip reviews).map (fun x =>
    x.2.map (fun r =>
      { r with asin := some x.1.asin,
               product_title := some (x.1.title.bind id) }))

/-- What `HTMLReportGenerator.generate` receives (the renderer itself is an
external collaborator; only its argument list matters here). -/
structure ReportInput where
  products : List Product
  product_data : List RFData
  reviews : List (List Review)
  analyses : List (Option GeminiResult)
  deriving DecidableEq

def generate_html_report (top : List Product) (pdata : List RFData)
    (reviews : List (List Review)) (analyses : List (Option GeminiResult)) :
    ReportInput :=
  { products := top, product_data := pdata, reviews := reviews,
    analyses := analyses }

/-- Steps 4-7 of `run` after `collect_product_data`: the tagging loop
mutates the review lists in place, so the flattened persisted collection,
the analysis stage and the report renderer all see the tagged records. -/
def runTail (top : List Product) (pdata : List RFData)
    (reviews : List (List Review)) (g : List GeminiOutcome) :
    Except PyErr (List Review × List (Option GeminiResult) × ReportInput) :=
  let tagged := tagReviews top reviews
  let all_reviews := tagged.flatten
  match analysisStage ((buildRequests top pdata tagged).zip g) with
  | .error e => .error e
  | .ok analyses =>
    .ok (all_reviews, analyses, generate_html_report top pdata tagged analyses)

/-! ## Analysis Text Parser (`report_generator.py`)

All character-level operations are ASCII-faithful to the Python ones on the
data this pipeline handles. -/

def strengthsMarker : PyStr := "**Product Strengths:**".toList

def concernsMarker : PyStr := "**Product Concerns:**".toList

/-- The character set of `line.lstrip('0123456789.-) ')`. -/
def itemStripChars : List Char := "0123456789.-) ".toList

/-- Python's substring test `needle in hay`. -/
def isSubstring (needle : PyStr) : PyStr → Bool
  | [] => needle.isEmpty
  | c :: rest => needle.isPrefixOf (c :: rest) || isSubstring needle rest

/-- Find the closing `**` of a non-greedy `\*\*(.*?)\*\*` match: the inner
text may not contain a newline (`.` without DOTALL). -/
def findClose : PyStr → Option (PyStr × PyStr)
  | [] => none
  | c :: rest =>
    if c = '*' ∧ rest.head? = some '*' then some ([], rest.tail)
    else if c = '\n' then none
    else (findClose rest).map (fun x => (c :: x.1, x.2))

theorem findClose_length :
    ∀ (s : PyStr) {x : PyStr × PyStr}, findClose s = some x →
      x.2.length + 2 ≤ s.length := by
  intro s
  induction s with
  | nil => intro x h; simp [findClose] at h
  | cons c rest ih =>
    intro x h
    rw [findClose] at h
    split_ifs at h with h1 h2
    · cases h
      cases rest with
      | nil => simp at h1
      | cons d tl => simp only [List.tail_cons, List.length_cons]; omega
    · cases hfc : findClose rest with
      | none => rw [hfc] at h; simp at h
      | some y =>
        rw [hfc] at h
        simp only [Option.map_some'] at h
        cases h
        have := ih hfc
        simp only [List.length_cons]
        omega

/-- `HTMLReportGenerator._markdown_to_html`: replace every non-greedy
`**text**` span by `<strong>text</strong>`, scanning left to right; a `**`
with no closing pair is kept and scanning resumes one character later. -/
def markdown_to_html : PyStr → PyStr
  | [] => []
  | c :: rest =>
    if c = '*' ∧ rest.head? = some '*' then
      match h : findClose rest.tail with
      | some x =>
        "<strong>".toList ++ x.1 ++ "</strong>".toList ++ markdown_to_html x.2
      | none => c :: markdown_to_html rest
    else c :: markdown_to_html rest
termination_by s => s.length
decreasing_by
  · have h1 := findClose_length rest.tail h
    have h2 : rest.tail.length ≤ rest.length := by
      cases rest <;> simp
    simp only [List.length_cons]
    omega
  · simp only [List.length_cons]
    omega
  · simp only [List.length_cons]
    omega

/-- The fixed placeholder phrases of
`HTMLReportGenerator._is_placeholder_text`. -/
def placeholderPatterns : List PyStr :=
  ["no common concerns identified".toList,
   "no concerns identified".toList,
   "no specific concerns".toList,
   "no major concerns".toList,
   "no common strengths identified".toList,
   "no strengths identified".toList,
   "no specific strengths".toList]

/-- `_is_placeholder_text`: case-insensitive substring containment of any
pattern. -/
def is_placeholder_text (s : PyStr) : Bool :=
  placeholderPatterns.any (fun pat => isSubstring pat (s.map Char.toLower))

/-- The per-section loop of `_parse_analysis_text`: a stripped line counts
only if it starts with a digit or a dash; enumeration tokens are stripped,
markdown converted, and a line already seen or matching a placeholder is
dropped.  `seen` is the set of accepted strings (equal to the accepted list
as a set). -/
def processLines : List PyStr → List PyStr → List PyStr
  | [], _ => []
  | raw :: rest, seen =>
    match pyStrip raw with
    | [] => processLines rest seen
    | c :: cs =>
      if c.isDigit || c == '-' then
        let cleaned := pyStrip (pyLstrip itemStripChars (c :: cs))
        if cleaned.isEmpty then processLines rest seen
        else
          let html := markdown_to_html cleaned
          if html ∈ seen || is_placeholder_text html then processLines rest seen
          else html :: processLines rest (html :: seen)
      else processLines rest seen

/-- `HTMLReportGenerator._parse_analysis_text`. -/
def parse_analysis_text (analysis_text : PyStr) : List PyStr × List PyStr :=
  if analysis_text.isEmpty then ([], [])
  else
    match pySplit analysis_text concernsMarker with
    | s0 :: s1 :: _ =>
      let strengths_text := pyStrip (replaceAux strengthsMarker [] s0)
      let concerns_text := pyStrip s1
      (processLines (pySplit strengths_text ['\n']) [],
       processLines (pySplit concerns_text ['\n']) [])
    | _ => ([], [])

/-! ## Supporting lemmas -/

theorem mapExcept_eq_map {α β E : Type} {f : α → Except E β} {g : α → β}
    (l : List α) (h : ∀ a ∈ l, f a = .ok (g a)) :
    mapExcept f l = .ok (l.map g) := by
  induction l with
  | nil => rfl
  | cons a rest ih =>
    simp only [mapExcept, h a (List.mem_cons_self a rest),
      ih (fun x hx => h x (List.mem_cons_of_mem a hx)), List.map_cons]

theorem gatherCheck_map_ok {α β E : Type} (f : α → β) (l : List α) :
    gatherCheck (l.map (fun a => (Except.ok (f a) : Except E β))) =
      .ok (l.map f) := by
  induction l with
  | nil => rfl
  | cons a rest ih =>
    simpa only [List.map_cons, gatherCheck, mapExcept, id] using
      congrArg (fun r => match r with
        | Except.error e => (Except.error e : Except E (List β))
        | Except.ok bs => .ok (f a :: bs)) ih

/-- Compact constructor for candidate records in concrete examples. -/
def mkProd (a : Option PyStr) (t : Option (Option PyStr)) (r : Option ℚ)
    (k : Option ℤ) (pr : PriceV) : Product :=
  { asin := a, title := t, link := none, link_clean := none,
    thumbnail := none, rating := r, reviews := k, price := pr }

/-! ## Claim C1: detail-stage failure handling -/

def rfD1 : RFData :=
  { product := some { title := some (some ['T', '1']), feature_bullets := none } }

def rfD3 : RFData :=
  { product := some { title := some (some ['T', '3']), feature_bullets := none } }

/-- Claim C1, counterexample: a transport failure on the second of three
detail fetches does NOT fail the stage and does NOT abort the run — the
handler swallows the error and an empty record is exposed in slot 2
alongside the other two results. -/
theorem C1_counterexample :
    detailStage [.success 200 rfD1, .transportError, .success 200 rfD3] =
      .ok [rfD1, emptyRFData, rfD3] := by
  decide

/-- Claim C1, amended: a non-success response or transport failure makes
`get_product_data` return an empty record, and the detail stage always
succeeds, exposing `get_product_data` of every response positionally; the
stage would abort only if a task raised, which the handler prevents. -/
theorem C1_detail_stage_never_aborts :
    (∀ responses : List (HttpOutcome RFData),
      detailStage responses = .ok (responses.map get_product_data)) ∧
    (∀ (s : ℕ) (b : RFData), s ≠ 200 →
      get_product_data (.success s b) = emptyRFData) ∧
    get_product_data .transportError = emptyRFData := by
  refine ⟨fun responses => ?_, fun s b hs => ?_, rfl⟩
  · exact gatherCheck_map_ok get_product_data responses
  · simp [get_product_data, hs]

/-- Witness for the amended C1 at concrete inputs. -/
theorem C1_witness :
    detailStage [HttpOutcome.transportError, .success 500 rfD1] =
      .ok [emptyRFData, emptyRFData] ∧
    get_product_data (.success 404 rfD1) = emptyRFData :=
  ⟨C1_detail_stage_never_aborts.1 [.transportError, .success 500 rfD1],
   C1_detail_stage_never_aborts.2.1 404 rfD1 (by decide)⟩

/-! ## Claim C2: the client-side filter predicate -/

/-- The filter admission rule exactly as the spec words it (for comparison
with the implemented `passesFilters`): a candidate passes if each set
threshold is met by a present field. -/
def specPassesFilters (min_rating : Option ℚ) (min_reviews : Option ℤ)
    (p : Product) : Bool :=
  (match min_rating with
   | none => true
   | some m => match p.rating with
     | none => false
     | some r => decide (m ≤ r)) &&
  (match min_reviews with
   | none => true
   | some m => match p.reviews with
     | none => false
     | some k => decide (m ≤ k))

def pZeroRating : Product := mkProd (some ['Z']) (some (some ['Z'])) (some 0) (some 5) .null

/-- Claim C2, counterexample: with the minimum-rating threshold set to 0 and
a present rating equal to 0, the spec's rule admits the candidate but the
code rejects it (Python truthiness: `rating and rating >= min_rating` is
falsy for a zero rating). -/
theorem C2_counterexample :
    passesFilters (some 0) none pZeroRating = false ∧
    specPassesFilters (some 0) none pZeroRating = true := by
  decide

/-- Claim C2, amended: the filter admits a candidate iff (the rating
threshold is unset OR the rating is present, nonzero and ≥ the threshold)
AND (the review threshold is unset OR the review count is present, nonzero
and ≥ the threshold); missing fields are excluded whenever the matching
threshold is set. -/
theorem C2_filter_characterization :
    ∀ (minR : Option ℚ) (minRev : Option ℤ) (p : Product),
      passesFilters minR minRev p = true ↔
        ((minR = none ∨ ∃ m r, minR = some m ∧ p.rating = some r ∧ r ≠ 0 ∧ m ≤ r) ∧
         (minRev = none ∨ ∃ m k, minRev = some m ∧ p.reviews = some k ∧ k ≠ 0 ∧ m ≤ k)) := by
  intro minR minRev p
  unfold passesFilters passes_rating passes_reviews
  cases minR with
  | none =>
    cases minRev with
    | none => simp
    | some m => cases hk : p.reviews with
      | none => simp [hk]
      | some k => simp [hk]
  | some m =>
    cases hr : p.rating with
    | none => simp [hr]
    | some r =>
      cases minRev with
      | none => simp [hr]
      | some m2 => cases hk : p.reviews with
        | none => simp [hr, hk]
        | some k => simp [hr, hk]

/-! ## Claim C9: positional alignment of stage outputs -/

/-- Claim C9: every stage (detail, review, analysis) succeeds with an output
of the same length as its input sequence, and the i-th output element is
the stage function applied to the i-th input — alignment is positional,
never completion-order. -/
theorem C9_stage_alignment :
    (∀ ds : List (HttpOutcome RFData), ∃ out,
      detailStage ds = .ok out ∧ out.length = ds.length ∧
      ∀ i : ℕ, out.get? i = (ds.get? i).map get_product_data) ∧
    (∀ rv : List ApifyOutcome, ∃ out,
      reviewStage rv = .ok out ∧ out.length = rv.length ∧
      ∀ i : ℕ, out.get? i = (rv.get? i).map apify_get_product_reviews) ∧
    (∀ reqs : List (AnalysisRequest × GeminiOutcome), ∃ out,
      analysisStage reqs = .ok out ∧ out.length = reqs.length ∧
      ∀ i : ℕ, out.get? i = (reqs.get? i).map (fun x => analyze_reviews x.1 x.2)) := by
  refine ⟨fun ds => ⟨ds.map get_product_data, ?_, by simp, fun i => by simp⟩,
          fun rv => ⟨rv.map apify_get_product_reviews, ?_, by simp, fun i => by simp⟩,
          fun reqs => ⟨reqs.map (fun x => analyze_reviews x.1 x.2), ?_, by simp, fun i => by simp⟩⟩
  · exact gatherCheck_map_ok get_product_data ds
  · exact gatherCheck_map_ok apify_get_product_reviews rv
  · exact gatherCheck_map_ok (fun x => analyze_reviews x.1 x.2) reqs

/-! ## Claim C10: in-place review tagging flows into later stages -/

/-- Claim C10: after the review-saving step each review record of entry `i`
carries `asin` and `product_title` copied from shortlist entry `i`, and the
run tail hands exactly these tagged records to the analysis stage (through
`buildRequests`) and to the report renderer. -/
theorem C10_review_tagging :
    ∀ (top : List Product) (pdata : List RFData)
      (reviews : List (List Review)) (g : List GeminiOutcome),
      (∀ (i : ℕ) (p : Product) (rs : List Review),
        top.get? i = some p → reviews.get? i = some rs →
        (tagReviews top reviews).get? i =
          some (rs.map (fun r =>
            { r with asin := some p.asin,
                     product_title := some (p.title.bind id) }))) ∧
      (∀ (i : ℕ) (p : Product) (rs : List Review) (r : Review),
        top.get? i = some p → (tagReviews top reviews).get? i = some rs →
        r ∈ rs → r.asin = some p.asin ∧ r.product_title = some (p.title.bind id)) ∧
      (∃ analyses,
        runTail top pdata reviews g =
          .ok ((tagReviews top reviews).flatten, analyses,
               generate_html_report top pdata (tagReviews top reviews) analyses) ∧
        analyses = ((buildRequests top pdata (tagReviews top reviews)).zip g).map
          (fun x => analyze_reviews x.1 x.2)) := by
  intro top pdata reviews g
  have hget : ∀ (i : ℕ) (p : Product) (rs : List Review),
      top.get? i = some p → reviews.get? i = some rs →
      (tagReviews top reviews).get? i =
        some (rs.map (fun r =>
          { r with asin := some p.asin,
                   product_title := some (p.title.bind id) })) := by
    intro i p rs hp hrs
    have hzip : (top.zip reviews).get? i = some (p, rs) :=
      (List.get?_zip_eq_some top reviews (p, rs) i).mpr ⟨hp, hrs⟩
    simp only [tagReviews, List.get?_eq_getElem?, List.getElem?_map,
      List.get?_eq_getElem? (l := top.zip reviews)] at hzip ⊢
    simp [hzip]
  refine ⟨hget, ?_, ?_⟩
  · intro i p rs r hp hrs hmem
    rcases hzr : reviews.get? i with _ | rs0
    · exfalso
      have : (tagReviews top reviews).get? i = none := by
        have hlen : (tagReviews top reviews).length ≤ reviews.length := by
          simp [tagReviews, List.length_zip]
        have : reviews.length ≤ i := by
          exact (List.get?_eq_none).mp hzr
        exact List.get?_eq_none.mpr (le_trans hlen this)
      rw [this] at hrs
      cases hrs
    · have := hget i p rs0 hp hzr
      rw [this] at hrs
      cases hrs
      simp only [List.mem_map] at hmem
      obtain ⟨r0, _, rfl⟩ := hmem
      exact ⟨rfl, rfl⟩
  · refine ⟨((buildRequests top pdata (tagReviews top reviews)).zip g).map
      (fun x => analyze_reviews x.1 x.2), ?_, rfl⟩
    have hAn : analysisStage ((buildRequests top pdata (tagReviews top reviews)).zip g) =
        .ok (((buildRequests top pdata (tagReviews top reviews)).zip g).map
          (fun x => analyze_reviews x.1 x.2)) :=
      gatherCheck_map_ok (fun x : AnalysisRequest × GeminiOutcome => analyze_reviews x.1 x.2)
        ((buildRequests top pdata (tagReviews top reviews)).zip g)
    simp only [runTail, hAn]

/-- Witness for C10 at a concrete one-entry run. -/
theorem C10_witness :
    (tagReviews [mkProd (some ['A']) (some (some ['T'])) none none .null]
        [[{ rating := some 5, body := ['g'], asin := none, product_title := none }]]).get? 0 =
      some [{ rating := some 5, body := ['g'], asin := some (some ['A']),
              product_title := some (some ['T']) }] :=
  (C10_review_tagging [mkProd (some ['A']) (some (some ['T'])) none none .null]
      [] [[{ rating := some 5, body := ['g'], asin := none, product_title := none }]]
      []).1 0 _ _ rfl rfl

/-! ## Claim C7: construction of the analysis request -/

def entryE : Product := mkProd (some ['E']) (some (some ['E', 't'])) (some 4) (some 10) .null

/-- A detail record whose product payload has no `feature_bullets` key: the
`.get` default `[]` is a list, so the joined description is empty. -/
def rfNoBullets : RFData :=
  { product := some { title := none, feature_bullets := none } }

def revSample : Review :=
  { rating := some 4, body := ['o', 'k'], asin := none, product_title := none }

/-- Claim C7, counterexample: with no feature-bullet text available the
description is the empty string, not the literal placeholder (the `[]`
default is a list, so the placeholder branch is never reached). -/
theorem C7_counterexample :
    (buildRequest entryE rfNoBullets [revSample]).description = [] ∧
    (buildRequest entryE rfNoBullets [revSample]).description ≠
      "No description available".toList := by
  decide

/-- Claim C7, amended: the request title is the detail-stage title whenever
that key is present (even if `None`), else the entry's title, else
`'Unknown Product'`; the description joins a feature-bullet list with one
`- ` marker per line (an absent key defaults to the empty list, so the
description is empty), a truthy non-list is stringified, and only a falsy
non-list value yields the placeholder; the entry's full review list is
passed through unchanged. -/
theorem C7_request_construction :
    ∀ (p : Product) (d : RFData) (rs : List Review),
      ((buildRequest p d rs).reviews = rs) ∧
      (∀ rp t, d.product = some rp → rp.title = some t →
        (buildRequest p d rs).title = t) ∧
      (∀ rp v, d.product = some rp → rp.title = none → p.title = some v →
        (buildRequest p d rs).title = v) ∧
      (d.product = none → p.title = none →
        (buildRequest p d rs).title = some "Unknown Product".toList) ∧
      (∀ rp bs, d.product = some rp → rp.feature_bullets = some (.list bs) →
        (buildRequest p d rs).description =
          joinLines (bs.map (fun b => '-' :: ' ' :: b))) ∧
      (∀ rp, d.product = some rp → rp.feature_bullets = none →
        (buildRequest p d rs).description = []) ∧
      (∀ rp, d.product = some rp → rp.feature_bullets = some .null →
        (buildRequest p d rs).description = "No description available".toList) ∧
      (∀ rp s, d.product = some rp → rp.feature_bullets = some (.str s) →
        s ≠ [] → (buildRequest p d rs).description = s) := by
  intro p d rs
  refine ⟨rfl, ?_, ?_, ?_, ?_, ?_, ?_, ?_⟩
  · intro rp t hd ht
    simp [buildRequest, hd, ht]
  · intro rp v hd ht hp
    simp [buildRequest, hd, ht, hp]
  · intro hd hp
    simp [buildRequest, hd, hp, emptyRFProduct]
  · intro rp bs hd hb
    simp [buildRequest, hd, hb]
  · intro rp hd hb
    simp [buildRequest, hd, hb, joinLines]
  · intro rp hd hb
    simp [buildRequest, hd, hb]
  · intro rp s hd hb hs
    simp [buildRequest, hd, hb, hs]

/-- Witness for the amended C7 at concrete inputs. -/
theorem C7_witness :
    (buildRequest entryE rfNoBullets [revSample]).reviews = [revSample] ∧
    (buildRequest entryE rfNoBullets [revSample]).title = some ['E', 't'] ∧
    (buildRequest entryE rfNoBullets [revSample]).description = [] :=
  ⟨(C7_request_construction entryE rfNoBullets [revSample]).1,
   (C7_request_construction entryE rfNoBullets [revSample]).2.2.1
     { title := none, feature_bullets := none } (some ['E', 't']) rfl rfl rfl,
   (C7_request_construction entryE rfNoBullets [revSample]).2.2.2.2.2.1
     { title := none, feature_bullets := none } rfl rfl⟩

/-! ## Claim C3: totality of the Filter/Rank Engine -/

theorem mapExcept_ok_of_forall {α β E : Type} {f : α → Except E β}
    {l : List α} (h : ∀ a ∈ l, ∃ b, f a = .ok b) :
    ∃ bs, mapExcept f l = .ok bs := by
  induction l with
  | nil => exact ⟨[], rfl⟩
  | cons a rest ih =>
    obtain ⟨b, hb⟩ := h a (List.mem_cons_self a rest)
    obtain ⟨bs, hbs⟩ := ih (fun x hx => h x (List.mem_cons_of_mem a hx))
    exact ⟨b :: bs, by simp only [mapExcept, hb, hbs]⟩

theorem mapExcept_mem {α β E : Type} {f : α → Except E β}
    {l : List α} {bs : List β} (h : mapExcept f l = .ok bs) :
    ∀ b ∈ bs, ∃ a ∈ l, f a = .ok b := by
  induction l generalizing bs with
  | nil =>
    cases h
    intro b hb
    cases hb
  | cons a rest ih =>
    simp only [mapExcept] at h
    cases hfa : f a with
    | error e => rw [hfa] at h; cases h
    | ok b0 =>
      rw [hfa] at h
      cases hrest : mapExcept f rest with
      | error e => rw [hrest] at h; cases h
      | ok bs0 =>
        rw [hrest] at h
        cases h
        intro b hb
        rcases List.mem_cons.mp hb with rfl | hb
        · exact ⟨a, List.mem_cons_self a rest, hfa⟩
        · obtain ⟨a0, ha0, hfa0⟩ := ih hrest b hb
          exact ⟨a0, List.mem_cons_of_mem a ha0, hfa0⟩

/-- A price value `select_top_products` can evaluate without raising: any
non-string, and a string that strips to empty or to a decimal with at most
one dot and at least one digit. -/
def priceSafe : PriceV → Bool
  | .str s =>
    let cleaned := s.filter (fun c => c.isDigit || c == '.')
    cleaned.isEmpty || (decide (cleaned.count '.' ≤ 1) && cleaned.any Char.isDigit)
  | _ => true

/-- A record whose `title` key holds a string (what the selection logging
requires). -/
def titleOk (p : Product) : Bool :=
  match p.title with
  | some (some _) => true
  | _ => false

theorem priceKey_ok_of_safe {pr : PriceV} (h : priceSafe pr = true) :
    ∃ q, priceKey pr = .ok q := by
  cases pr with
  | absent => exact ⟨0, rfl⟩
  | null => exact ⟨999999, rfl⟩
  | num q => exact ⟨q, rfl⟩
  | str s =>
    simp only [priceSafe, Bool.or_eq_true, Bool.and_eq_true, decide_eq_true_eq] at h
    rcases h with h | ⟨h1, h2⟩
    · exact ⟨999999, by simp [priceKey, h]⟩
    · have hne : (s.filter (fun c => c.isDigit || c == '.')).isEmpty = false := by
        cases he : (s.filter (fun c => c.isDigit || c == '.')).isEmpty
        · rfl
        · exfalso
          rw [List.isEmpty_iff] at he
          rw [he] at h2
          cases h2
      cases hf : pyFloat (s.filter (fun c => c.isDigit || c == '.')) with
      | error e =>
        exfalso
        rw [pyFloat, if_pos ⟨h1, h2⟩] at hf
        cases hf
      | ok q =>
        exact ⟨q, by simp only [priceKey, hne, Bool.false_eq_true, if_false, hf]⟩

def pBadPrice : Product :=
  mkProd (some ['X']) (some (some ['X'])) (some 4) (some 10) (.str "1.2.3".toList)

def pNoTitle : Product :=
  mkProd (some ['Y']) none (some 4) (some 10) .null

/-- Claim C3, counterexample: ranking is not total — a malformed price
string whose stripped form has two dots raises `ValueError` from `float`,
and a record without a title raises `KeyError` in the selection logging;
neither degrades to the sentinel. -/
theorem C3_counterexample :
    select_top_products [pBadPrice] 10 = .error .valueError ∧
    select_top_products [pNoTitle] 10 = .error .keyError := by
  decide

/-- Claim C3, amended: ranking and truncation return normally on every
input whose string prices strip to empty or to a valid decimal (at most one
dot, at least one digit) and whose records carry string titles; a string
price stripping to empty and a `None` price degrade to the sentinel 999999,
while an absent price key sorts as 0.  Outside that domain the function can
raise (see the counterexample). -/
theorem C3_totality_on_safe_inputs :
    (∀ (products : List Product) (limit : ℕ),
      (∀ p ∈ products, priceSafe p.price = true ∧ titleOk p = true) →
      ∃ o, select_top_products products limit = .ok o) ∧
    (∀ s : PyStr, (s.filter (fun c => c.isDigit || c == '.')).isEmpty = true →
      priceKey (.str s) = .ok 999999) ∧
    priceKey .null = .ok 999999 ∧
    priceKey .absent = .ok 0 := by
  refine ⟨?_, ?_, rfl, rfl⟩
  · intro products limit h
    have hkeys : ∀ p ∈ products,
        ∃ x, (sortKey p).map (fun k => (k, p)) = .ok x := by
      intro p hp
      obtain ⟨q, hq⟩ := priceKey_ok_of_safe (h p hp).1
      exact ⟨((-(p.rating.getD 0), -(p.reviews.getD 0), q), p), by
        simp [sortKey, hq, Except.map]⟩
    obtain ⟨keyed, hkeyed⟩ := mapExcept_ok_of_forall hkeys
    have hmem : ∀ x ∈ keyed, x.2 ∈ products := by
      intro x hx
      obtain ⟨a, ha, hfa⟩ := mapExcept_mem hkeyed x hx
      cases hsk : sortKey a with
      | error e => rw [hsk] at hfa; cases hfa
      | ok k =>
        rw [hsk] at hfa
        simp only [Except.map] at hfa
        cases hfa
        exact ha
    have hlog : ∀ p ∈ (((List.insertionSort keyedLe keyed).map
        (fun x => x.2)).take limit), ∃ u, logSelected p = .ok u := by
      intro p hp
      have hp2 := List.take_subset limit _ hp
      simp only [List.mem_map] at hp2
      obtain ⟨x, hx, rfl⟩ := hp2
      have hx2 : x ∈ keyed := (List.mem_insertionSort keyedLe).mp hx
      have := (h x.2 (hmem x hx2)).2
      unfold titleOk at this
      cases ht : x.2.title with
      | none => rw [ht] at this; cases this
      | some v =>
        cases v with
        | none => rw [ht] at this; cases this
        | some t => exact ⟨(), by simp [logSelected, ht]⟩
    obtain ⟨us, hus⟩ := mapExcept_ok_of_forall hlog
    refine ⟨((List.insertionSort keyedLe keyed).map (fun x => x.2)).take limit, ?_⟩
    simp only [select_top_products, hkeyed, hus]
  · intro s hs
    simp [priceKey, hs]

/-- Witness for the amended C3 at concrete inputs. -/
theorem C3_witness :
    (∃ o, select_top_products [pZeroRating] 3 = .ok o) ∧
    priceKey (.str "N/A".toList) = .ok 999999 :=
  ⟨C3_totality_on_safe_inputs.1 [pZeroRating] 3 (by decide),
   C3_totality_on_safe_inputs.2.1 "N/A".toList (by decide)⟩

/-! ## Claim C4: deduplication, uniqueness and the size bound -/

theorem exceptMap_ok {E α β : Type} {g : α → β} {e : Except E α} {b : β} :
    e.map g = .ok b ↔ ∃ a, e = .ok a ∧ g a = b := by
  cases e <;> simp [Except.map]

theorem select_ok_shape {l : List Product} {n : ℕ} {o : List Product}
    (h : select_top_products l n = .ok o) :
    ∃ keyed, mapExcept (fun p => (sortKey p).map (fun k => (k, p))) l = .ok keyed ∧
      o = ((List.insertionSort keyedLe keyed).map (fun x => x.2)).take n ∧
      ∃ us, mapExcept logSelected o = .ok us := by
  unfold select_top_products at h
  split at h
  · cases h
  · rename_i keyed hk
    dsimp only at h
    split at h
    · cases h
    · rename_i us hl
      cases h
      exact ⟨keyed, hk, rfl, us, hl⟩

theorem mapExcept_sortKey_shape {l : List Product}
    {keyed : List ((ℚ × ℤ × ℚ) × Product)}
    (h : mapExcept (fun p => (sortKey p).map (fun k => (k, p))) l = .ok keyed) :
    keyed.map (fun x => x.2) = l ∧ ∀ x ∈ keyed, sortKey x.2 = .ok x.1 := by
  induction l generalizing keyed with
  | nil =>
    cases h
    exact ⟨rfl, by intro x hx; cases hx⟩
  | cons a rest ih =>
    simp only [mapExcept] at h
    split at h
    · cases h
    · rename_i b hb
      split at h
      · cases h
      · rename_i bs hbs
        cases h
        obtain ⟨k, hk, rfl⟩ := exceptMap_ok.mp hb
        obtain ⟨hmap, hall⟩ := ih hbs
        refine ⟨by simp [hmap], ?_⟩
        intro x hx
        rcases List.mem_cons.mp hx with rfl | hx
        · exact hk
        · exact hall x hx

theorem projectEntry_asin (p : Product) : (projectEntry p).asin = p.asin := rfl

theorem filterProducts_seen_nodup (minR : Option ℚ) (minRev : Option ℤ) :
    ∀ (l : List Product) (seen : List (Option PyStr)),
      (∀ q ∈ filterProducts minR minRev l seen, q.asin ∉ seen) ∧
      ((filterProducts minR minRev l seen).map (fun p => p.asin)).Nodup := by
  intro l
  induction l with
  | nil => exact fun seen => ⟨(by intro q hq; cases hq), List.nodup_nil⟩
  | cons p rest ih =>
    intro seen
    by_cases hseen : p.asin ∈ seen
    · simpa only [filterProducts, if_pos hseen] using ih seen
    · by_cases hpass : passesFilters minR minRev p = true
      · have hrec := ih (p.asin :: seen)
        constructor
        · intro q hq
          simp only [filterProducts, if_neg hseen, if_pos hpass] at hq
          rcases List.mem_cons.mp hq with rfl | hq
          · rw [projectEntry_asin]; exact hseen
          · have := hrec.1 q hq
            intro hmem
            exact this (List.mem_cons_of_mem _ hmem)
        · simp only [filterProducts, if_neg hseen, if_pos hpass, List.map_cons]
          refine List.nodup_cons.mpr ⟨?_, hrec.2⟩
          intro hmem
          simp only [List.mem_map] at hmem
          obtain ⟨q, hq, heq⟩ := hmem
          have := hrec.1 q hq
          rw [projectEntry_asin] at heq
          exact this (heq ▸ List.mem_cons_self _ _)
      · have h1 : filterProducts minR minRev (p :: rest) seen =
            filterProducts minR minRev rest seen := by
          simp only [filterProducts, if_neg hseen]
          rw [if_neg]
          simp [hpass]
        rw [h1]
        exact ih seen

theorem filterProducts_eq_filter_then_dedup (minR : Option ℚ) (minRev : Option ℤ) :
    ∀ (l : List Product) (seen : List (Option PyStr)),
      filterProducts minR minRev l seen =
        (dedupFirst (l.filter (fun p => passesFilters minR minRev p)) seen).map
          projectEntry := by
  intro l
  induction l with
  | nil => intro seen; rfl
  | cons p rest ih =>
    intro seen
    by_cases hpass : passesFilters minR minRev p = true
    · rw [List.filter_cons_of_pos hpass]
      by_cases hseen : p.asin ∈ seen
      · simp only [filterProducts, if_pos hseen, dedupFirst]
        exact ih seen
      · simp only [filterProducts, if_neg hseen, if_pos hpass, dedupFirst,
          List.map_cons]
        rw [ih (p.asin :: seen)]
    · rw [List.filter_cons_of_neg (by simp [hpass])]
      by_cases hseen : p.asin ∈ seen
      · simp only [filterProducts, if_pos hseen]
        exact ih seen
      · have h1 : filterProducts minR minRev (p :: rest) seen =
            filterProducts minR minRev rest seen := by
          simp only [filterProducts, if_neg hseen]
          rw [if_neg]
          simp [hpass]
        rw [h1]
        exact ih seen

def pAfail : Product := mkProd (some ['A']) (some (some ['A'])) (some 1) (some 10) .null

def pApass : Product := mkProd (some ['A']) (some (some ['A'])) (some 5) (some 10) .null

/-- Claim C4, counterexample: when the first occurrence of an identifier
fails the filter, its asin is not reserved, so a later passing occurrence is
kept — the kept entry is NOT the first occurrence, i.e. deduplication does
not precede filtering. -/
theorem C4_counterexample :
    filterRankEngine (some 4) none 10 [pAfail, pApass] = .ok [projectEntry pApass] ∧
    (dedupFirst [pAfail, pApass] []).filter
      (fun p => passesFilters (some 4) none p) = [] ∧
    projectEntry pApass ≠ projectEntry pAfail := by
  decide

/-- Claim C4, amended: the engine output has pairwise distinct identifiers
and length ≤ the configured limit, and the kept entry for each identifier is
the first occurrence that passes the filter — the loop is equivalent to
filtering first and then deduplicating by identifier (not the other way
round). -/
theorem C4_engine_dedup_bound :
    ∀ (minR : Option ℚ) (minRev : Option ℤ) (limit : ℕ)
      (raw o : List Product),
      filterRankEngine minR minRev limit raw = .ok o →
      ((o.map (fun p => p.asin)).Nodup ∧ o.length ≤ limit ∧
       filterProducts minR minRev raw [] =
         (dedupFirst (raw.filter (fun p => passesFilters minR minRev p)) []).map
           projectEntry) := by
  intro minR minRev limit raw o h
  obtain ⟨keyed, hk, ho, -⟩ := select_ok_shape h
  obtain ⟨hmap, -⟩ := mapExcept_sortKey_shape hk
  have hnodup := (filterProducts_seen_nodup minR minRev raw []).2
  have hperm : List.Perm
      (((List.insertionSort keyedLe keyed).map (fun x => x.2)).map
        (fun p => p.asin))
      ((filterProducts minR minRev raw []).map (fun p => p.asin)) := by
    have h1 : List.Perm (List.insertionSort keyedLe keyed) keyed :=
      List.perm_insertionSort keyedLe keyed
    have h2 := (h1.map (fun x => x.2)).map (fun p => p.asin)
    rwa [hmap] at h2
  refine ⟨?_, ?_, filterProducts_eq_filter_then_dedup minR minRev raw []⟩
  · have hnodup2 : (((List.insertionSort keyedLe keyed).map (fun x => x.2)).map
        (fun p => p.asin)).Nodup := hperm.nodup_iff.mpr hnodup
    rw [ho, List.map_take]
    exact hnodup2.sublist (List.take_sublist limit _)
  · rw [ho]
    exact List.length_take_le limit _

/-- Witness for the amended C4 at a concrete engine run. -/
theorem C4_witness :
    ([projectEntry pApass].map (fun p => p.asin)).Nodup ∧
    [projectEntry pApass].length ≤ 10 ∧
    filterProducts (some 4) none [pAfail, pApass] [] =
      (dedupFirst ([pAfail, pApass].filter
        (fun p => passesFilters (some 4) none p)) []).map projectEntry :=
  C4_engine_dedup_bound (some 4) none 10 [pAfail, pApass] [projectEntry pApass]
    (by decide)

/-! ## Claim C5: sort order and stability -/

def pXabsent : Product :=
  mkProd (some ['X']) (some (some ['X'])) (some 4) (some 10) .absent

def pY5 : Product :=
  mkProd (some ['Y']) (some (some ['Y'])) (some 4) (some 10) (.num 5)

/-- Claim C5, counterexample: a record whose price key is absent gets the
default `0` as its price component, so at equal rating/reviews it ranks
FIRST (before an item priced 5), not last as the sentinel clause of the
claim states. -/
theorem C5_counterexample :
    select_top_products [pXabsent, pY5] 10 = .ok [pXabsent, pY5] ∧
    pXabsent.price = PriceV.absent ∧
    priceKey pY5.price = .ok 5 ∧
    priceKey pXabsent.price = .ok 0 ∧
    [pXabsent, pY5].getLast? = some pY5 ∧ pY5 ≠ pXabsent := by
  decide

theorem tupLe_refl (a : ℚ × ℤ × ℚ) : tupLe a a :=
  Or.inr ⟨rfl, Or.inr ⟨rfl, le_refl _⟩⟩

/-- Claim C5, amended: on success the output is sorted by the actual key —
descending rating, then descending review count, then ascending effective
price, where the effective price of a string is its stripped parse (empty →
sentinel 999999), of `None` the sentinel 999999, and of an absent key the
default 0 (such records rank first, not last); and the sort is stable: for
every key value, the output entries holding it form a prefix of the input
entries holding it, in input order. -/
theorem C5_sorted_and_stable :
    ∀ (l : List Product) (n : ℕ) (o : List Product),
      select_top_products l n = .ok o →
      (List.Pairwise (fun p q => ∃ kp kq, sortKey p = .ok kp ∧
        sortKey q = .ok kq ∧ tupLe kp kq) o ∧
       ∀ k : ℚ × ℤ × ℚ,
         (o.filter (fun p => decide (sortKey p = Except.ok k))) <+:
           (l.filter (fun p => decide (sortKey p = Except.ok k)))) := by
  intro l n o h
  obtain ⟨keyed, hk, ho, -⟩ := select_ok_shape h
  obtain ⟨hmap, hall⟩ := mapExcept_sortKey_shape hk
  have hsortedS : (List.insertionSort keyedLe keyed).Pairwise keyedLe :=
    List.sorted_insertionSort keyedLe keyed
  constructor
  · have hS : (List.insertionSort keyedLe keyed).Pairwise
        (fun x y => ∃ kp kq, sortKey x.2 = .ok kp ∧ sortKey y.2 = .ok kq ∧
          tupLe kp kq) := by
      refine List.Pairwise.imp_of_mem ?_ hsortedS
      intro x y hx hy hxy
      have hx2 := hall x ((List.mem_insertionSort keyedLe).mp hx)
      have hy2 := hall y ((List.mem_insertionSort keyedLe).mp hy)
      exact ⟨x.1, y.1, hx2, hy2, hxy⟩
    have hSm : ((List.insertionSort keyedLe keyed).map (fun x => x.2)).Pairwise
        (fun p q => ∃ kp kq, sortKey p = .ok kp ∧ sortKey q = .ok kq ∧
          tupLe kp kq) := List.pairwise_map.mpr hS
    rw [ho]
    exact hSm.sublist (List.take_sublist n _)
  · intro k
    have hfilterS : (List.insertionSort keyedLe keyed).filter
        (fun x => decide (sortKey x.2 = Except.ok k)) =
        keyed.filter (fun x => decide (sortKey x.2 = Except.ok k)) := by
      have hsamekey : ∀ x ∈ keyed.filter
          (fun x => decide (sortKey x.2 = Except.ok k)), x.1 = k := by
        intro x hx
        obtain ⟨hx1, hx2⟩ := List.mem_filter.mp hx
        simp only [decide_eq_true_eq] at hx2
        rw [hall x hx1] at hx2
        exact Except.ok.inj hx2
      have hcpair : (keyed.filter
          (fun x => decide (sortKey x.2 = Except.ok k))).Pairwise keyedLe := by
        refine List.pairwise_of_forall_mem_list ?_
        intro x hx y hy
        unfold keyedLe
        rw [hsamekey x hx, hsamekey y hy]
        exact tupLe_refl k
      have hcsub : List.Sublist
          (keyed.filter (fun x => decide (sortKey x.2 = Except.ok k)))
          (List.insertionSort keyedLe keyed) :=
        List.sublist_insertionSort hcpair (List.filter_sublist keyed)
      have hQall : ∀ x ∈ keyed.filter
          (fun x => decide (sortKey x.2 = Except.ok k)),
          decide (sortKey x.2 = Except.ok k) = true := by
        intro x hx
        exact (List.mem_filter.mp hx).2
      have hcsub2 : List.Sublist
          (keyed.filter (fun x => decide (sortKey x.2 = Except.ok k)))
          ((List.insertionSort keyedLe keyed).filter
            (fun x => decide (sortKey x.2 = Except.ok k))) := by
        have h1 := hcsub.filter (fun x => decide (sortKey x.2 = Except.ok k))
        rwa [List.filter_eq_self.mpr hQall] at h1
      have hperm2 : List.Perm
          ((List.insertionSort keyedLe keyed).filter
            (fun x => decide (sortKey x.2 = Except.ok k)))
          (keyed.filter (fun x => decide (sortKey x.2 = Except.ok k))) :=
        (List.perm_insertionSort keyedLe keyed).filter _
      exact (hcsub2.eq_of_length hperm2.length_eq.symm).symm
    have hmain : ((List.insertionSort keyedLe keyed).map (fun x => x.2)).filter
        (fun p => decide (sortKey p = Except.ok k)) =
        l.filter (fun p => decide (sortKey p = Except.ok k)) := by
      rw [← hmap, List.filter_map, List.filter_map]
      exact congrArg (List.map (fun x => x.2)) hfilterS
    have hpre : ((List.insertionSort keyedLe keyed).map (fun x => x.2)).take n <+:
        (List.insertionSort keyedLe keyed).map (fun x => x.2) :=
      List.take_prefix n _
    have hfil := hpre.filter (fun p => decide (sortKey p = Except.ok k))
    rw [hmain] at hfil
    rw [ho]
    exact hfil

/-- Witness for the amended C5 at a concrete run. -/
theorem C5_witness :
    List.Pairwise (fun p q => ∃ kp kq, sortKey p = .ok kp ∧
      sortKey q = .ok kq ∧ tupLe kp kq) [pXabsent, pY5] ∧
    ([pXabsent, pY5].filter
      (fun p => decide (sortKey p = Except.ok (-4, -10, 0)))) <+:
      ([pXabsent, pY5].filter
        (fun p => decide (sortKey p = Except.ok (-4, -10, 0)))) :=
  ⟨(C5_sorted_and_stable [pXabsent, pY5] 10 [pXabsent, pY5] (by decide)).1,
   (C5_sorted_and_stable [pXabsent, pY5] 10 [pXabsent, pY5] (by decide)).2
     (-4, -10, 0)⟩

/-! ## Claim C8: idempotence of ranking -/

/-- The sort key as a total function on products whose key computation
succeeds (used to re-decorate an already ranked list). -/
def keyOf (p : Product) : ℚ × ℤ × ℚ :=
  match sortKey p with
  | .ok k => k
  | .error _ => (0, 0, 0)

theorem keyOf_eq {p : Product} {k : ℚ × ℤ × ℚ} (h : sortKey p = .ok k) :
    keyOf p = k := by
  simp [keyOf, h]

/-- Claim C8: applying the ranking-and-truncation to its own output with
the same limit returns that output unchanged. -/
theorem C8_rank_idempotent :
    ∀ (l : List Product) (n : ℕ) (o : List Product),
      select_top_products l n = .ok o →
      select_top_products o n = .ok o := by
  intro l n o h
  obtain ⟨keyed, hk, ho, us, hlog⟩ := select_ok_shape h
  obtain ⟨hmap, hall⟩ := mapExcept_sortKey_shape hk
  have hallS : ∀ x ∈ (List.insertionSort keyedLe keyed).take n,
      sortKey x.2 = .ok x.1 := by
    intro x hx
    exact hall x ((List.mem_insertionSort keyedLe).mp
      (List.take_subset n _ hx))
  have ho2 : o = ((List.insertionSort keyedLe keyed).take n).map
      (fun x => x.2) := by
    rw [ho, List.map_take]
  have hmemf : ∀ p ∈ o, (fun p => (sortKey p).map (fun k => (k, p))) p =
      .ok ((fun p => (keyOf p, p)) p) := by
    intro p hp
    rw [ho2] at hp
    simp only [List.mem_map] at hp
    obtain ⟨x, hx, rfl⟩ := hp
    have hx2 := hallS x hx
    simp [keyOf_eq hx2, hx2, Except.map]
  have hkey2 : o.map (fun p => (keyOf p, p)) =
      (List.insertionSort keyedLe keyed).take n := by
    rw [ho2, List.map_map]
    have hcongr : ∀ x ∈ (List.insertionSort keyedLe keyed).take n,
        ((fun p => (keyOf p, p)) ∘ (fun x => x.2)) x = id x := by
      intro x hx
      obtain ⟨x1, x2⟩ := x
      have hx2 := hallS _ hx
      simp only [Function.comp_apply, id]
      rw [keyOf_eq hx2]
    rw [List.map_congr_left hcongr, List.map_id]
  have hmek : mapExcept (fun p => (sortKey p).map (fun k => (k, p))) o =
      .ok ((List.insertionSort keyedLe keyed).take n) := by
    rw [← hkey2]
    exact mapExcept_eq_map o hmemf
  have hpair2 : ((List.insertionSort keyedLe keyed).take n).Pairwise keyedLe :=
    (List.sorted_insertionSort keyedLe keyed).sublist (List.take_sublist n _)
  have hsorteq : List.insertionSort keyedLe
      ((List.insertionSort keyedLe keyed).take n) =
      (List.insertionSort keyedLe keyed).take n :=
    List.Sorted.insertionSort_eq hpair2
  have hlen : o.length ≤ n := by
    rw [ho]
    exact List.length_take_le n _
  unfold select_top_products
  rw [hmek]
  dsimp only
  rw [hsorteq, ← ho2, List.take_of_length_le hlen, hlog]

/-- Witness for C8 at a concrete run. -/
theorem C8_witness :
    select_top_products [pXabsent] 1 = .ok [pXabsent] :=
  C8_rank_idempotent [pXabsent, pY5] 1 [pXabsent] (by decide)

/-! ## Claim C6: the analysis-text parser -/

theorem dropWhile_eq_self_of_head {p : Char → Bool} :
    ∀ {s : PyStr}, (∀ c, s.head? = some c → p c = false) → s.dropWhile p = s
  | [], _ => rfl
  | c :: cs, h => by
    have hc := h c rfl
    simp [List.dropWhile_cons, hc]

theorem pyStrip_eq_self {s : PyStr}
    (h1 : ∀ c, s.head? = some c → pyIsSpace c = false)
    (h2 : ∀ c, s.getLast? = some c → pyIsSpace c = false) :
    pyStrip s = s := by
  unfold pyStrip
  rw [dropWhile_eq_self_of_head h1]
  rw [dropWhile_eq_self_of_head
    (fun c hc => h2 c (by rwa [List.head?_reverse] at hc))]
  exact List.reverse_reverse s

theorem pyStrip_newline_head {xs : PyStr}
    (h1 : ∀ c, xs.head? = some c → pyIsSpace c = false)
    (h2 : ∀ c, xs.getLast? = some c → pyIsSpace c = false) :
    pyStrip ('\n' :: xs) = xs := by
  unfold pyStrip
  rw [List.dropWhile_cons]
  rw [if_pos (by decide)]
  rw [dropWhile_eq_self_of_head h1]
  rw [dropWhile_eq_self_of_head
    (fun c hc => h2 c (by rwa [List.head?_reverse] at hc))]
  exact List.reverse_reverse xs

theorem pyStrip_newline_wrap {xs : PyStr} (hne : xs ≠ [])
    (h1 : ∀ c, xs.head? = some c → pyIsSpace c = false)
    (h2 : ∀ c, xs.getLast? = some c → pyIsSpace c = false) :
    pyStrip ('\n' :: xs ++ ['\n']) = xs := by
  unfold pyStrip
  rw [List.cons_append, List.dropWhile_cons]
  rw [if_pos (by decide)]
  have hd1 : List.dropWhile pyIsSpace (xs ++ ['\n']) = xs ++ ['\n'] := by
    cases hxs : xs with
    | nil => exact absurd hxs hne
    | cons c cs =>
      rw [List.cons_append, List.dropWhile_cons]
      rw [if_neg (by simp [h1 c (by rw [hxs]; rfl)])]
  rw [hd1]
  rw [List.reverse_append]
  simp only [List.reverse_cons, List.reverse_nil, List.nil_append,
    List.singleton_append]
  rw [List.dropWhile_cons]
  rw [if_pos (by decide)]
  rw [dropWhile_eq_self_of_head
    (fun c hc => h2 c (by rwa [List.head?_reverse] at hc))]
  exact List.reverse_reverse xs

theorem pyLstrip_item {b : PyStr}
    (hb : ∀ c, b.head? = some c → b.head? = some c ∧ c ∉ itemStripChars) :
    pyLstrip itemStripChars ('-' :: ' ' :: b) = b := by
  unfold pyLstrip
  rw [List.dropWhile_cons, if_pos (by decide)]
  rw [List.dropWhile_cons, if_pos (by decide)]
  refine dropWhile_eq_self_of_head ?_
  intro c hc
  have h2 := (hb c hc).2
  simp [List.contains, List.elem_eq_mem, h2]

theorem splitAux_append_notMem {ch : Char} {sepTl : PyStr} :
    ∀ (xs tail acc : PyStr), ch ∉ xs →
      splitAux (ch :: sepTl) (xs ++ tail) acc =
        splitAux (ch :: sepTl) tail (xs.reverse ++ acc) := by
  intro xs
  induction xs with
  | nil => intro tail acc _; simp
  | cons c xs' ih =>
    intro tail acc h
    have hc : c ≠ ch := fun he => h (he ▸ List.mem_cons_self c xs')
    have hpre : List.isPrefixOf (ch :: sepTl) (c :: (xs' ++ tail)) = false := by
      simp only [List.isPrefixOf_cons₂]
      rw [beq_eq_false_iff_ne.mpr (Ne.symm hc)]
      rfl
    rw [List.cons_append]
    simp only [splitAux, hpre, Bool.false_eq_true, if_false]
    rw [ih tail (c :: acc) (fun hm => h (List.mem_cons_of_mem c hm))]
    simp [List.append_assoc]

theorem splitAux_notMem {ch : Char} {sepTl : PyStr} (xs acc : PyStr)
    (h : ch ∉ xs) :
    splitAux (ch :: sepTl) xs acc = [acc.reverse ++ xs] := by
  have h1 := @splitAux_append_notMem ch sepTl xs [] acc h
  rw [List.append_nil] at h1
  rw [h1]
  simp only [splitAux]
  simp [List.reverse_append]

theorem splitAux_hit {ch : Char} {sepTl : PyStr} (rest acc : PyStr) :
    splitAux (ch :: sepTl) ((ch :: sepTl) ++ rest) acc =
      acc.reverse :: splitAux (ch :: sepTl) rest [] := by
  have hpre : List.isPrefixOf (ch :: sepTl) (ch :: (sepTl ++ rest)) = true := by
    rw [List.isPrefixOf_iff_prefix]
    exact ⟨rest, by simp⟩
  rw [List.cons_append]
  simp only [splitAux, hpre, if_true]
  congr 2
  rw [show (ch :: sepTl).length - 1 = sepTl.length by simp]
  exact List.drop_left sepTl rest

theorem replaceAux_notMem {ch : Char} {sepTl repl : PyStr} :
    ∀ (xs : PyStr), ch ∉ xs → replaceAux (ch :: sepTl) repl xs = xs := by
  intro xs
  induction xs with
  | nil => intro; simp [replaceAux]
  | cons c xs' ih =>
    intro h
    have hc : c ≠ ch := fun he => h (he ▸ List.mem_cons_self c xs')
    have hpre : List.isPrefixOf (ch :: sepTl) (c :: xs') = false := by
      simp only [List.isPrefixOf_cons₂]
      rw [beq_eq_false_iff_ne.mpr (Ne.symm hc)]
      rfl
    simp only [replaceAux, hpre, Bool.false_eq_true, if_false]
    rw [ih (fun hm => h (List.mem_cons_of_mem c hm))]

theorem replaceAux_hit {ch : Char} {sepTl repl : PyStr} (rest : PyStr) :
    replaceAux (ch :: sepTl) repl ((ch :: sepTl) ++ rest) =
      repl ++ replaceAux (ch :: sepTl) repl rest := by
  have hpre : List.isPrefixOf (ch :: sepTl) (ch :: (sepTl ++ rest)) = true := by
    rw [List.isPrefixOf_iff_prefix]
    exact ⟨rest, by simp⟩
  rw [List.cons_append]
  simp only [replaceAux, hpre, if_true]
  congr 2
  rw [show (ch :: sepTl).length - 1 = sepTl.length by simp]
  exact List.drop_left sepTl rest

theorem splitAux_skip_strengths : ∀ (tail acc : PyStr),
    splitAux concernsMarker (strengthsMarker ++ ('\n' :: tail)) acc =
      splitAux concernsMarker ('\n' :: tail) (strengthsMarker.reverse ++ acc) := by
  intro tail acc
  simp [strengthsMarker, concernsMarker, splitAux, List.isPrefixOf]

theorem joinLines_cons_cons (l l2 : PyStr) (ls : List PyStr) :
    joinLines (l :: l2 :: ls) = l ++ '\n' :: joinLines (l2 :: ls) := by
  simp [joinLines]

theorem mem_joinLines {c : Char} :
    ∀ {ls : List PyStr}, c ∈ joinLines ls → c = '\n' ∨ ∃ l ∈ ls, c ∈ l := by
  intro ls
  induction ls with
  | nil => intro h; cases h
  | cons l ls ih =>
    intro h
    cases ls with
    | nil =>
      right
      exact ⟨l, List.mem_cons_self l [], h⟩
    | cons l2 ls2 =>
      rw [joinLines_cons_cons] at h
      rcases List.mem_append.mp h with h | h
      · exact Or.inr ⟨l, List.mem_cons_self _ _, h⟩
      · rcases List.mem_cons.mp h with rfl | h
        · exact Or.inl rfl
        · rcases ih h with h | ⟨l', hl', hc⟩
          · exact Or.inl h
          · exact Or.inr ⟨l', List.mem_cons_of_mem _ hl', hc⟩

theorem joinLines_ne_nil : ∀ {ls : List PyStr}, ls ≠ [] →
    (∀ l ∈ ls, l ≠ []) → joinLines ls ≠ [] := by
  intro ls h1 h2
  cases ls with
  | nil => exact absurd rfl h1
  | cons l ls =>
    cases ls with
    | nil => exact h2 l (List.mem_cons_self _ _)
    | cons l2 ls2 =>
      rw [joinLines_cons_cons]
      intro hcon
      rcases List.append_eq_nil.mp hcon with ⟨-, h⟩
      cases h

theorem getLast?_append_ne {α : Type} {l l' : List α} (h : l' ≠ []) :
    (l ++ l').getLast? = l'.getLast? := by
  rw [List.getLast?_append]
  cases hl : l'.getLast? with
  | none => exact absurd (List.getLast?_eq_none_iff.mp hl) h
  | some a => rfl

theorem joinLines_getLast? :
    ∀ {ls : List PyStr}, ls ≠ [] → (∀ l ∈ ls, l ≠ []) →
      (∀ l ∈ ls, ∀ c, l.getLast? = some c → pyIsSpace c = false) →
      ∀ c, (joinLines ls).getLast? = some c → pyIsSpace c = false := by
  intro ls
  induction ls with
  | nil => intro h; exact absurd rfl h
  | cons l ls ih =>
    intro _ hne hlast c hc
    cases ls with
    | nil => exact hlast l (List.mem_cons_self _ _) c hc
    | cons l2 ls2 =>
      rw [joinLines_cons_cons] at hc
      have hJ : joinLines (l2 :: ls2) ≠ [] :=
        joinLines_ne_nil (by simp) (fun x hx => hne x (List.mem_cons_of_mem _ hx))
      rw [getLast?_append_ne (by simp)] at hc
      rw [show ('\n' : Char) :: joinLines (l2 :: ls2) = ['\n'] ++ joinLines (l2 :: ls2)
        from rfl] at hc
      rw [getLast?_append_ne hJ] at hc
      exact ih (by simp) (fun x hx => hne x (List.mem_cons_of_mem _ hx))
        (fun x hx => hlast x (List.mem_cons_of_mem _ hx)) c hc

theorem joinLines_items_head? (b : PyStr) (ls : List PyStr) :
    ∀ c, (joinLines (('-' :: ' ' :: b) :: ls)).head? = some c →
      pyIsSpace c = false := by
  intro c hc
  cases ls with
  | nil =>
    simp only [joinLines] at hc
    cases hc
    decide
  | cons l2 ls2 =>
    rw [joinLines_cons_cons, List.cons_append, List.head?_cons] at hc
    cases hc
    decide

theorem pySplit_joinLines :
    ∀ (l : PyStr) (ls : List PyStr) (acc : PyStr),
      '\n' ∉ l → (∀ l' ∈ ls, '\n' ∉ l') →
      splitAux ['\n'] (joinLines (l :: ls)) acc = (acc.reverse ++ l) :: ls := by
  intro l ls
  induction ls generalizing l with
  | nil =>
    intro acc h1 _
    simp only [joinLines]
    exact splitAux_notMem l acc h1
  | cons l2 ls2 ih =>
    intro acc h1 h2
    rw [joinLines_cons_cons]
    rw [show (l ++ '\n' :: joinLines (l2 :: ls2)) =
      l ++ (['\n'] ++ joinLines (l2 :: ls2)) from by simp]
    rw [show (['\n'] : PyStr) = '\n' :: [] from rfl]
    rw [@splitAux_append_notMem '\n' [] l _ acc h1]
    rw [show ('\n' : Char) :: ([] : PyStr) = ['\n'] from rfl]
    rw [splitAux_hit]
    rw [ih l2 [] (h2 l2 (List.mem_cons_self _ _))
      (fun x hx => h2 x (List.mem_cons_of_mem _ hx))]
    simp [List.reverse_append]

theorem markdown_of_no_star : ∀ {s : PyStr}, '*' ∉ s → markdown_to_html s = s := by
  intro s
  induction s with
  | nil => intro; simp [markdown_to_html]
  | cons c rest ih =>
    intro h
    have hc : ¬(c = '*' ∧ rest.head? = some '*') := fun hand =>
      h (hand.1 ▸ List.mem_cons_self c rest)
    simp only [markdown_to_html, if_neg hc]
    rw [ih (fun hm => h (List.mem_cons_of_mem c hm))]

/-- A well-formed list item body for the parser round-trip: nonempty, free
of newlines and asterisks, with a first character that survives the
enumeration strip and no whitespace at either edge, and not matching a
placeholder phrase. -/
def cleanItem (b : PyStr) : Bool :=
  decide (b ≠ []) && decide ('\n' ∉ b) && decide ('*' ∉ b) &&
  (match b.head? with
   | some c => decide (c ∉ itemStripChars) && !pyIsSpace c
   | none => false) &&
  (match b.getLast? with
   | some c => !pyIsSpace c
   | none => false) &&
  !is_placeholder_text b

theorem cleanItem_facts {b : PyStr} (h : cleanItem b = true) :
    b ≠ [] ∧ '\n' ∉ b ∧ '*' ∉ b ∧
    (∀ c, b.head? = some c → c ∉ itemStripChars ∧ pyIsSpace c = false) ∧
    (∀ c, b.getLast? = some c → pyIsSpace c = false) ∧
    is_placeholder_text b = false := by
  simp only [cleanItem, Bool.and_eq_true, decide_eq_true_eq,
    Bool.not_eq_true'] at h
  obtain ⟨⟨⟨⟨⟨h1, h2⟩, h3⟩, h4⟩, h5⟩, h6⟩ := h
  refine ⟨h1, h2, h3, ?_, ?_, h6⟩
  · intro c hc
    rw [hc] at h4
    simp only [Bool.and_eq_true, decide_eq_true_eq, Bool.not_eq_true'] at h4
    exact h4
  · intro c hc
    rw [hc] at h5
    simp only [Bool.not_eq_true'] at h5
    exact h5

theorem processLines_items (S : List PyStr) :
    ∀ (seen : List PyStr), (∀ b ∈ S, cleanItem b = true) → S.Nodup →
      (∀ b ∈ S, b ∉ seen) →
      processLines (S.map (fun b => '-' :: ' ' :: b)) seen = S := by
  induction S with
  | nil => intro seen _ _ _; rfl
  | cons b S' ih =>
    intro seen hclean hnodup hfresh
    obtain ⟨hne, hnl, hns, hhead, hlast, hph⟩ :=
      cleanItem_facts (hclean b (List.mem_cons_self b S'))
    have hstrip_line : pyStrip ('-' :: ' ' :: b) = '-' :: ' ' :: b := by
      refine pyStrip_eq_self ?_ ?_
      · intro c hc
        cases hc
        decide
      · intro c hc
        cases hb : b with
        | nil => exact absurd hb hne
        | cons b0 b' =>
          rw [hb] at hc
          rw [List.getLast?_cons_cons, List.getLast?_cons_cons] at hc
          exact hlast c (by rw [hb]; exact hc)
    have hlstrip : pyLstrip itemStripChars ('-' :: ' ' :: b) = b :=
      pyLstrip_item (fun c hc => ⟨hc, (hhead c hc).1⟩)
    have hstrip_b : pyStrip b = b :=
      pyStrip_eq_self (fun c hc => (hhead c hc).2) hlast
    have hmd : markdown_to_html b = b := markdown_of_no_star hns
    have hnotseen : b ∉ seen := hfresh b (List.mem_cons_self b S')
    simp only [List.map_cons, processLines, hstrip_line]
    cases hb : b with
    | nil => exact absurd hb hne
    | cons b0 b' =>
      rw [← hb]
      simp only [show ('-'.isDigit || '-' == '-') = true from rfl, if_true]
      rw [hlstrip, hstrip_b]  -- may need adjusting to the match structure
      simp only [List.isEmpty_eq_true]   -- placeholder adjustments
      rw [if_neg (by rw [hb]; simp)]
      rw [hmd]
      rw [if_neg (by simp [hnotseen, hph])]
      congr 1
      refine ih (b :: seen) (fun x hx => hclean x (List.mem_cons_of_mem _ hx))
        (List.Nodup.of_cons hnodup) ?_
      intro x hx
      simp only [List.mem_cons]
      rintro (rfl | hmem)
      · exact (List.nodup_cons.mp hnodup).1 hx
      · exact hfresh x (List.mem_cons_of_mem _ hx) hmem

theorem concernsMarker_cons :
    concernsMarker = '*' :: "*Product Concerns:**".toList := by
  decide

theorem strengthsMarker_cons :
    strengthsMarker = '*' :: "*Product Strengths:**".toList := by
  decide

theorem splitAux_cm_notMem (xs tail acc : PyStr) (h : '*' ∉ xs) :
    splitAux concernsMarker (xs ++ tail) acc =
      splitAux concernsMarker tail (xs.reverse ++ acc) := by
  rw [concernsMarker_cons]
  exact splitAux_append_notMem xs tail acc h

theorem splitAux_cm_last (xs acc : PyStr) (h : '*' ∉ xs) :
    splitAux concernsMarker xs acc = [acc.reverse ++ xs] := by
  rw [concernsMarker_cons]
  exact splitAux_notMem xs acc h

theorem splitAux_cm_hit (rest acc : PyStr) :
    splitAux concernsMarker (concernsMarker ++ rest) acc =
      acc.reverse :: splitAux concernsMarker rest [] := by
  rw [concernsMarker_cons]
  exact splitAux_hit rest acc

theorem replaceAux_sm_hit (rest : PyStr) :
    replaceAux strengthsMarker [] (strengthsMarker ++ rest) =
      replaceAux strengthsMarker [] rest := by
  rw [strengthsMarker_cons]
  rw [replaceAux_hit rest]
  rfl

theorem replaceAux_sm_notMem (xs : PyStr) (h : '*' ∉ xs) :
    replaceAux strengthsMarker [] xs = xs := by
  rw [strengthsMarker_cons]
  exact replaceAux_notMem xs h

theorem star_notMem_items {S : List PyStr}
    (h : ∀ b ∈ S, cleanItem b = true) :
    '*' ∉ joinLines (S.map (fun b => '-' :: ' ' :: b)) := by
  intro hmem
  rcases mem_joinLines hmem with he | ⟨l, hl, hc⟩
  · cases he
  · simp only [List.mem_map] at hl
    obtain ⟨b, hb, rfl⟩ := hl
    obtain ⟨-, -, hns, -, -, -⟩ := cleanItem_facts (h b hb)
    rcases List.mem_cons.mp hc with he | hc
    · cases he
    · rcases List.mem_cons.mp hc with he | hc
      · cases he
      · exact hns hc

theorem newline_notMem_item {b : PyStr} (h : '\n' ∉ b) :
    '\n' ∉ ('-' :: ' ' :: b) := by
  intro hmem
  rcases List.mem_cons.mp hmem with he | hmem
  · cases he
  · rcases List.mem_cons.mp hmem with he | hmem
    · cases he
    · exact h hmem

theorem items_nonempty (S : List PyStr) :
    ∀ l ∈ S.map (fun b => '-' :: ' ' :: b), l ≠ [] := by
  intro l hl
  simp only [List.mem_map] at hl
  obtain ⟨b, -, rfl⟩ := hl
  simp

theorem items_getLast {S : List PyStr} (h : ∀ b ∈ S, cleanItem b = true) :
    ∀ l ∈ S.map (fun b => '-' :: ' ' :: b), ∀ c,
      l.getLast? = some c → pyIsSpace c = false := by
  intro l hl c hc
  simp only [List.mem_map] at hl
  obtain ⟨b, hb, rfl⟩ := hl
  obtain ⟨hne, -, -, -, hlast, -⟩ := cleanItem_facts (h b hb)
  cases hbs : b with
  | nil => exact absurd hbs hne
  | cons b0 b' =>
    rw [hbs, List.getLast?_cons_cons, List.getLast?_cons_cons] at hc
    exact hlast c (by rw [hbs]; exact hc)

theorem joinLines_items_facts {S : List PyStr} (hne : S ≠ [])
    (h : ∀ b ∈ S, cleanItem b = true) :
    joinLines (S.map (fun b => '-' :: ' ' :: b)) ≠ [] ∧
    (∀ c, (joinLines (S.map (fun b => '-' :: ' ' :: b))).head? = some c →
      pyIsSpace c = false) ∧
    (∀ c, (joinLines (S.map (fun b => '-' :: ' ' :: b))).getLast? = some c →
      pyIsSpace c = false) := by
  cases S with
  | nil => exact absurd rfl hne
  | cons b S' =>
    refine ⟨joinLines_ne_nil (by simp) (items_nonempty _), ?_, ?_⟩
    · exact joinLines_items_head? b (S'.map (fun b => '-' :: ' ' :: b))
    · exact joinLines_getLast? (by simp) (items_nonempty _) (items_getLast h)

/-- A canonical well-formed analysis response: a strengths header, one
`- `-marked line per strength, the concerns delimiter, and one line per
concern. -/
def mkInput (strengths concerns : List PyStr) : PyStr :=
  strengthsMarker ++
    ('\n' :: (joinLines (strengths.map (fun b => '-' :: ' ' :: b)) ++
      ('\n' :: (concernsMarker ++
        ('\n' :: joinLines (concerns.map (fun b => '-' :: ' ' :: b)))))))

theorem pySplit_mkInput {S C : List PyStr}
    (hS : ∀ b ∈ S, cleanItem b = true) (hC : ∀ b ∈ C, cleanItem b = true) :
    pySplit (mkInput S C) concernsMarker =
      [strengthsMarker ++
        ('\n' :: (joinLines (S.map (fun b => '-' :: ' ' :: b)) ++ ['\n'])),
       '\n' :: joinLines (C.map (fun b => '-' :: ' ' :: b))] := by
  have hJSstar := star_notMem_items hS
  have hJCstar : '*' ∉ ('\n' :: joinLines (C.map (fun b => '-' :: ' ' :: b))) := by
    intro hm
    rcases List.mem_cons.mp hm with he | hm
    · cases he
    · exact star_notMem_items hC hm
  unfold pySplit mkInput
  rw [splitAux_skip_strengths]
  rw [show ('\n' :: (joinLines (S.map (fun b => '-' :: ' ' :: b)) ++
      ('\n' :: (concernsMarker ++
        ('\n' :: joinLines (C.map (fun b => '-' :: ' ' :: b))))))) =
    ['\n'] ++ (joinLines (S.map (fun b => '-' :: ' ' :: b)) ++
      ('\n' :: (concernsMarker ++
        ('\n' :: joinLines (C.map (fun b => '-' :: ' ' :: b)))))) from rfl]
  rw [splitAux_cm_notMem _ _ _ (by decide)]
  rw [splitAux_cm_notMem _ _ _ hJSstar]
  rw [show ('\n' :: (concernsMarker ++
      ('\n' :: joinLines (C.map (fun b => '-' :: ' ' :: b))))) =
    ['\n'] ++ (concernsMarker ++
      ('\n' :: joinLines (C.map (fun b => '-' :: ' ' :: b)))) from rfl]
  rw [splitAux_cm_notMem _ _ _ (by decide)]
  rw [splitAux_cm_hit]
  rw [splitAux_cm_last _ _ hJCstar]
  simp [List.reverse_append, List.append_assoc]

theorem processLines_inv : ∀ (lines seen : List PyStr),
    (processLines lines seen).Nodup ∧
    ∀ x ∈ processLines lines seen, x ∉ seen ∧ is_placeholder_text x = false := by
  intro lines
  induction lines with
  | nil => exact fun seen => ⟨List.nodup_nil, by intro x hx; cases hx⟩
  | cons raw rest ih =>
    intro seen
    simp only [processLines]
    cases hs : pyStrip raw with
    | nil => exact ih seen
    | cons c cs =>
      dsimp only
      by_cases h1 : (c.isDigit || c == '-') = true
      · rw [if_pos h1]
        by_cases h2 : (pyStrip (pyLstrip itemStripChars (c :: cs))).isEmpty = true
        · rw [if_pos h2]
          exact ih seen
        · rw [if_neg h2]
          by_cases h3 : (decide (markdown_to_html
              (pyStrip (pyLstrip itemStripChars (c :: cs))) ∈ seen) ||
              is_placeholder_text (markdown_to_html
                (pyStrip (pyLstrip itemStripChars (c :: cs))))) = true
          · rw [if_pos h3]
            exact ih seen
          · rw [if_neg h3]
            simp only [Bool.or_eq_true, decide_eq_true_eq, not_or,
              Bool.not_eq_true] at h3
            obtain ⟨hnotseen, hnotph⟩ := h3
            have hrec := ih (markdown_to_html
              (pyStrip (pyLstrip itemStripChars (c :: cs))) :: seen)
            constructor
            · refine List.nodup_cons.mpr ⟨?_, hrec.1⟩
              intro hmem
              exact (hrec.2 _ hmem).1 (List.mem_cons_self _ _)
            · intro x hx
              rcases List.mem_cons.mp hx with rfl | hx
              · exact ⟨hnotseen, hnotph⟩
              · have := hrec.2 x hx
                exact ⟨fun hm => this.1 (List.mem_cons_of_mem _ hm), this.2⟩
      · rw [if_neg h1]
        exact ih seen

/-- Claim C6: (1) a well-formed response built from N strength bodies and M
concern bodies (each clean, pairwise distinct, non-placeholder, with
3 ≤ N, M ≤ 10) parses back to exactly those bodies in order; (2) for every
input whatsoever, both output lists are duplicate-free and contain no entry
matching a placeholder phrase. -/
theorem C6_parser_roundtrip_and_hygiene :
    (∀ S C : List PyStr,
      (∀ b ∈ S, cleanItem b = true) → (∀ b ∈ C, cleanItem b = true) →
      S.Nodup → C.Nodup →
      3 ≤ S.length → S.length ≤ 10 → 3 ≤ C.length → C.length ≤ 10 →
      parse_analysis_text (mkInput S C) = (S, C)) ∧
    (∀ t : PyStr,
      (parse_analysis_text t).1.Nodup ∧ (parse_analysis_text t).2.Nodup ∧
      (∀ x ∈ (parse_analysis_text t).1, is_placeholder_text x = false) ∧
      (∀ x ∈ (parse_analysis_text t).2, is_placeholder_text x = false)) := by
  constructor
  · intro S C hS hC hSd hCd hS3 _ hC3 _
    have hSne : S ≠ [] := by intro h; rw [h] at hS3; cases hS3
    have hCne : C ≠ [] := by intro h; rw [h] at hC3; cases hC3
    obtain ⟨hJSne, hJShead, hJSlast⟩ := joinLines_items_facts hSne hS
    obtain ⟨hJCne, hJChead, hJClast⟩ := joinLines_items_facts hCne hC
    have hsplit := pySplit_mkInput hS hC
    have hne : (mkInput S C).isEmpty = false := by
      unfold mkInput
      rw [strengthsMarker_cons]
      rfl
    have hrepl : replaceAux strengthsMarker []
        (strengthsMarker ++
          ('\n' :: (joinLines (S.map (fun b => '-' :: ' ' :: b)) ++ ['\n']))) =
        '\n' :: (joinLines (S.map (fun b => '-' :: ' ' :: b)) ++ ['\n']) := by
      rw [replaceAux_sm_hit]
      refine replaceAux_sm_notMem _ ?_
      intro hm
      rcases List.mem_cons.mp hm with he | hm
      · cases he
      · rcases List.mem_append.mp hm with hm | hm
        · exact star_notMem_items hS hm
        · rcases List.mem_cons.mp hm with he | hm
          · cases he
          · cases hm
    have hstripS : pyStrip
        ('\n' :: (joinLines (S.map (fun b => '-' :: ' ' :: b)) ++ ['\n'])) =
        joinLines (S.map (fun b => '-' :: ' ' :: b)) := by
      rw [← List.cons_append]
      exact pyStrip_newline_wrap hJSne hJShead hJSlast
    have hstripC : pyStrip
        ('\n' :: joinLines (C.map (fun b => '-' :: ' ' :: b))) =
        joinLines (C.map (fun b => '-' :: ' ' :: b)) :=
      pyStrip_newline_head hJChead hJClast
    have hsplitS : pySplit (joinLines (S.map (fun b => '-' :: ' ' :: b)))
        ['\n'] = S.map (fun b => '-' :: ' ' :: b) := by
      cases S with
      | nil => exact absurd rfl hSne
      | cons s0 S' =>
        unfold pySplit
        rw [List.map_cons]
        rw [pySplit_joinLines _ _ []
          (newline_notMem_item (cleanItem_facts
            (hS s0 (List.mem_cons_self _ _))).2.1)
          (by
            intro l hl
            simp only [List.mem_map] at hl
            obtain ⟨b, hb, rfl⟩ := hl
            exact newline_notMem_item (cleanItem_facts
              (hS b (List.mem_cons_of_mem _ hb))).2.1)]
        rfl
    have hsplitC : pySplit (joinLines (C.map (fun b => '-' :: ' ' :: b)))
        ['\n'] = C.map (fun b => '-' :: ' ' :: b) := by
      cases C with
      | nil => exact absurd rfl hCne
      | cons c0 C' =>
        unfold pySplit
        rw [List.map_cons]
        rw [pySplit_joinLines _ _ []
          (newline_notMem_item (cleanItem_facts
            (hC c0 (List.mem_cons_self _ _))).2.1)
          (by
            intro l hl
            simp only [List.mem_map] at hl
            obtain ⟨b, hb, rfl⟩ := hl
            exact newline_notMem_item (cleanItem_facts
              (hC b (List.mem_cons_of_mem _ hb))).2.1)]
        rfl
    have hprocS : processLines (S.map (fun b => '-' :: ' ' :: b)) [] = S :=
      processLines_items S [] hS hSd (by intro b _ hmem; cases hmem)
    have hprocC : processLines (C.map (fun b => '-' :: ' ' :: b)) [] = C :=
      processLines_items C [] hC hCd (by intro b _ hmem; cases hmem)
    simp only [parse_analysis_text, hne, Bool.false_eq_true, if_false, hsplit]
    rw [hrepl, hstripS, hstripC, hsplitS, hsplitC, hprocS, hprocC]
  · intro t
    by_cases he : t.isEmpty = true
    · simp [parse_analysis_text, he]
    · rcases hsp : pySplit t concernsMarker with _ | ⟨s0, tl⟩
      · simp only [parse_analysis_text, he, Bool.false_eq_true, if_false, hsp]
        exact ⟨List.nodup_nil, List.nodup_nil,
          (by intro x hx; cases hx), (by intro x hx; cases hx)⟩
      · rcases tl with _ | ⟨s1, tl2⟩
        · simp only [parse_analysis_text, he, Bool.false_eq_true, if_false, hsp]
          exact ⟨List.nodup_nil, List.nodup_nil,
            (by intro x hx; cases hx), (by intro x hx; cases hx)⟩
        · simp only [parse_analysis_text, he, Bool.false_eq_true, if_false, hsp]
          refine ⟨(processLines_inv _ []).1, (processLines_inv _ []).1, ?_, ?_⟩
          · intro x hx
            exact ((processLines_inv _ []).2 x hx).2
          · intro x hx
            exact ((processLines_inv _ []).2 x hx).2

def wStrengths : List PyStr :=
  ["Good battery life".toList, "Sharp display".toList, "Fast charging".toList]

def wConcerns : List PyStr :=
  ["Heavy body".toList, "High price".toList, "Weak speaker".toList]

/-- Witness for the C6 round-trip at a concrete well-formed response. -/
theorem C6_witness :
    parse_analysis_text (mkInput wStrengths wConcerns) =
      (wStrengths, wConcerns) :=
  C6_parser_roundtrip_and_hygiene.1 wStrengths wConcerns (by decide) (by decide)
    (by decide) (by decide) (by decide) (by decide) (by decide) (by decide)
